import Mathlib

/-!
Shallow embedding of the `kapa` CLI (src/main.rs): a read-only catalog of
programming-language records, a loader probing a fixed candidate-path list,
and a query engine (search by name, filter by year, filter by creator,
aggregate statistics).

Rust strings are modelled as `List Char`; `str::to_lowercase` is modelled
character-wise via `Char.toLower`, and `str::contains` as the (decidable)
`List.IsInfix` relation.  `u32` years are modelled as `Nat` (the program
only compares years, never does arithmetic on them).
-/

namespace Kapa

/-- One catalog entry, mirroring `struct Language` in `src/main.rs`. -/
structure Language where
  name : List Char
  year : Nat
  creators : List (List Char)
  paradigm : List (List Char)
  typing : List Char
  influenced_by : List (List Char)
deriving DecidableEq, Repr

/-- `str::to_lowercase`, modelled character-wise. -/
def lowerStr (s : List Char) : List Char := s.map Char.toLower

/-- `hay.contains(pat)`: substring containment, as a Bool. -/
def containsSub (hay pat : List Char) : Bool := decide (pat <:+: hay)

/-- `Commands::Search`: `languages.iter().filter(|lang|
lang.name.to_lowercase().contains(&name.to_lowercase()))`. -/
def searchByName (C : List Language) (q : List Char) : List Language :=
  C.filter (fun lang => containsSub (lowerStr lang.name) (lowerStr q))

/-- `Commands::Year`: `languages.iter().filter(|lang| lang.year == year)`. -/
def filterByYear (C : List Language) (y : Nat) : List Language :=
  C.filter (fun lang => lang.year == y)

/-- `Commands::Creator`: `languages.iter().filter(|lang|
lang.creators.iter().any(|c| c.to_lowercase().contains(&name.to_lowercase())))`. -/
def filterByCreator (C : List Language) (q : List Char) : List Language :=
  C.filter (fun lang =>
    lang.creators.any (fun c => containsSub (lowerStr c) (lowerStr q)))

/- Sample records shared by the concrete witnesses below. -/

/-- Sample record: Rust (2010). -/
def rustRec : Language :=
  { name := ['R', 'u', 's', 't'], year := 2010
    creators := [['G', 'r', 'a', 'y', 'd', 'o', 'n']]
    paradigm := [['f', 'n']], typing := ['s'], influenced_by := [] }

/-- Sample record: Go (2009). -/
def goRec : Language :=
  { name := ['G', 'o'], year := 2009
    creators := [['R', 'o', 'b'], ['K', 'e', 'n']]
    paradigm := [['i', 'm', 'p']], typing := ['s'], influenced_by := [] }

/-- Sample two-record catalog. -/
def sampleCatalog : List Language := [rustRec, goRec]

/-- C5: `SearchByName` returns exactly the subsequence of the catalog whose
`name`, compared case-insensitively, contains the query as a substring, in
original catalog order; the empty query returns the whole catalog. -/
theorem searchByName_correct (C : List Language) (q : List Char) :
    (searchByName C q).Sublist C ∧
    (∀ r, r ∈ searchByName C q ↔ r ∈ C ∧ lowerStr q <:+: lowerStr r.name) ∧
    (∀ r, (searchByName C q).count r =
      if lowerStr q <:+: lowerStr r.name then C.count r else 0) ∧
    searchByName C [] = C := by
  refine ⟨List.filter_sublist C, fun r => ?_, fun r => ?_, ?_⟩
  · simp [searchByName, containsSub]
  · by_cases h : lowerStr q <:+: lowerStr r.name
    · simp only [if_pos h]
      exact List.count_filter (by simpa [containsSub] using h)
    · simp only [if_neg h]
      refine List.count_eq_zero.mpr (fun hmem => h ?_)
      simpa [searchByName, containsSub] using (List.mem_filter.mp hmem).2
  · simp [searchByName, containsSub, lowerStr]

/-- C5 witness at a concrete catalog and query. -/
theorem searchByName_correct_witness :
    (searchByName sampleCatalog ['r', 'u']).Sublist sampleCatalog ∧
    (∀ r, r ∈ searchByName sampleCatalog ['r', 'u'] ↔
      r ∈ sampleCatalog ∧ lowerStr ['r', 'u'] <:+: lowerStr r.name) ∧
    (∀ r, (searchByName sampleCatalog ['r', 'u']).count r =
      if lowerStr ['r', 'u'] <:+: lowerStr r.name
      then sampleCatalog.count r else 0) ∧
    searchByName sampleCatalog [] = sampleCatalog :=
  searchByName_correct sampleCatalog ['r', 'u']

/-- C7: `FilterByYear` returns exactly the subsequence with `year == y`, in
original order, and the empty sequence (not an error) when nothing matches. -/
theorem filterByYear_correct (C : List Language) (y : Nat) :
    (filterByYear C y).Sublist C ∧
    (∀ r, r ∈ filterByYear C y ↔ r ∈ C ∧ r.year = y) ∧
    (∀ r, (filterByYear C y).count r = if r.year = y then C.count r else 0) ∧
    ((∀ r ∈ C, r.year ≠ y) → filterByYear C y = []) := by
  refine ⟨List.filter_sublist C, fun r => ?_, fun r => ?_, fun h => ?_⟩
  · simp [filterByYear]
  · by_cases h : r.year = y
    · simp only [if_pos h]
      exact List.count_filter (by simpa using h)
    · simp only [if_neg h]
      refine List.count_eq_zero.mpr (fun hmem => h ?_)
      simpa [filterByYear] using (List.mem_filter.mp hmem).2
  · exact List.filter_eq_nil_iff.mpr (by simpa [filterByYear] using h)

/-- C6: `FilterByCreator` returns exactly the subsequence in which at least
one `creators` entry, compared case-insensitively, contains the query as a
substring, preserving catalog order. -/
theorem filterByCreator_correct (C : List Language) (q : List Char) :
    (filterByCreator C q).Sublist C ∧
    (∀ r, r ∈ filterByCreator C q ↔
      r ∈ C ∧ ∃ c ∈ r.creators, lowerStr q <:+: lowerStr c) ∧
    (∀ r, (filterByCreator C q).count r =
      if ∃ c ∈ r.creators, lowerStr q <:+: lowerStr c then C.count r else 0) := by
  refine ⟨List.filter_sublist C, fun r => ?_, fun r => ?_⟩
  · simp [filterByCreator, containsSub, List.any_eq_true]
  · by_cases h : ∃ c ∈ r.creators, lowerStr q <:+: lowerStr c
    · simp only [if_pos h]
      exact List.count_filter (by simpa [containsSub, List.any_eq_true] using h)
    · simp only [if_neg h]
      refine List.count_eq_zero.mpr (fun hmem => h ?_)
      simpa [filterByCreator, containsSub, List.any_eq_true] using
        (List.mem_filter.mp hmem).2

/-- C6 witness at a concrete catalog and query. -/
theorem filterByCreator_correct_witness :
    (filterByCreator sampleCatalog ['k', 'e', 'n']).Sublist sampleCatalog ∧
    (∀ r, r ∈ filterByCreator sampleCatalog ['k', 'e', 'n'] ↔
      r ∈ sampleCatalog ∧
        ∃ c ∈ r.creators, lowerStr ['k', 'e', 'n'] <:+: lowerStr c) ∧
    (∀ r, (filterByCreator sampleCatalog ['k', 'e', 'n']).count r =
      if ∃ c ∈ r.creators, lowerStr ['k', 'e', 'n'] <:+: lowerStr c
      then sampleCatalog.count r else 0) :=
  filterByCreator_correct sampleCatalog ['k', 'e', 'n']

/-- C7 witness at a concrete catalog and year. -/
theorem filterByYear_correct_witness :
    (filterByYear sampleCatalog 2009).Sublist sampleCatalog ∧
    (∀ r, r ∈ filterByYear sampleCatalog 2009 ↔
      r ∈ sampleCatalog ∧ r.year = 2009) ∧
    (∀ r, (filterByYear sampleCatalog 2009).count r =
      if r.year = 2009 then sampleCatalog.count r else 0) ∧
    ((∀ r ∈ sampleCatalog, r.year ≠ 2009) → filterByYear sampleCatalog 2009 = []) :=
  filterByYear_correct sampleCatalog 2009

/-- The fold underlying `Iterator::min_by_key`: the accumulator is replaced
only when the new key is strictly smaller, so the first minimum survives. -/
def minFold {α : Type} (f : α → Nat) (x : α) (xs : List α) : α :=
  xs.foldl (fun acc y => if f y < f acc then y else acc) x

/-- The fold underlying `Iterator::max_by_key`: the accumulator is replaced
when the new key is greater *or equal*, so the last maximum survives. -/
def maxFold {α : Type} (f : α → Nat) (x : α) (xs : List α) : α :=
  xs.foldl (fun acc y => if f acc ≤ f y then y else acc) x

/-- `iter().min_by_key(f)`: `none` on an empty list, else the first
element with minimal key. -/
def minByKey {α : Type} (f : α → Nat) : List α → Option α
  | [] => none
  | x :: xs => some (minFold f x xs)

/-- `iter().max_by_key(f)`: `none` on an empty list, else the last
element with maximal key. -/
def maxByKey {α : Type} (f : α → Nat) : List α → Option α
  | [] => none
  | x :: xs => some (maxFold f x xs)

theorem minFold_le {α : Type} (f : α → Nat) (x : α) (xs : List α) :
    ∀ y ∈ x :: xs, f (minFold f x xs) ≤ f y := by
  induction xs generalizing x with
  | nil =>
    intro y hy
    rcases List.mem_singleton.mp hy with rfl
    exact Nat.le_refl _
  | cons z zs ih =>
    intro y hy
    by_cases hzx : f z < f x
    · have hstep : minFold f x (z :: zs) = minFold f z zs := by
        simp [minFold, if_pos hzx]
      rw [hstep]
      rcases List.mem_cons.mp hy with h | h
      · calc f (minFold f z zs) ≤ f z := ih z z (List.mem_cons_self _ _)
          _ ≤ f x := Nat.le_of_lt hzx
          _ = f y := by rw [h]
      · rcases List.mem_cons.mp h with h2 | h2
        · calc f (minFold f z zs) ≤ f z := ih z z (List.mem_cons_self _ _)
            _ = f y := by rw [h2]
        · exact ih z y (List.mem_cons_of_mem _ h2)
    · have hstep : minFold f x (z :: zs) = minFold f x zs := by
        simp [minFold, if_neg hzx]
      rw [hstep]
      rcases List.mem_cons.mp hy with h | h
      · calc f (minFold f x zs) ≤ f x := ih x x (List.mem_cons_self _ _)
          _ = f y := by rw [h]
      · rcases List.mem_cons.mp h with h2 | h2
        · calc f (minFold f x zs) ≤ f x := ih x x (List.mem_cons_self _ _)
            _ ≤ f z := Nat.le_of_not_lt hzx
            _ = f y := by rw [h2]
        · exact ih x y (List.mem_cons_of_mem _ h2)

theorem maxFold_ge {α : Type} (f : α → Nat) (x : α) (xs : List α) :
    ∀ y ∈ x :: xs, f y ≤ f (maxFold f x xs) := by
  induction xs generalizing x with
  | nil =>
    intro y hy
    rcases List.mem_singleton.mp hy with rfl
    exact Nat.le_refl _
  | cons z zs ih =>
    intro y hy
    by_cases hxz : f x ≤ f z
    · have hstep : maxFold f x (z :: zs) = maxFold f z zs := by
        simp [maxFold, if_pos hxz]
      rw [hstep]
      rcases List.mem_cons.mp hy with h | h
      · calc f y = f x := by rw [h]
          _ ≤ f z := hxz
          _ ≤ f (maxFold f z zs) := ih z z (List.mem_cons_self _ _)
      · rcases List.mem_cons.mp h with h2 | h2
        · calc f y = f z := by rw [h2]
            _ ≤ f (maxFold f z zs) := ih z z (List.mem_cons_self _ _)
        · exact ih z y (List.mem_cons_of_mem _ h2)
    · have hstep : maxFold f x (z :: zs) = maxFold f x zs := by
        simp [maxFold, if_neg hxz]
      rw [hstep]
      rcases List.mem_cons.mp hy with h | h
      · calc f y = f x := by rw [h]
          _ ≤ f (maxFold f x zs) := ih x x (List.mem_cons_self _ _)
      · rcases List.mem_cons.mp h with h2 | h2
        · calc f y = f z := by rw [h2]
            _ ≤ f x := Nat.le_of_not_le hxz
            _ ≤ f (maxFold f x zs) := ih x x (List.mem_cons_self _ _)
        · exact ih x y (List.mem_cons_of_mem _ h2)

theorem minFold_first {α : Type} (f : α → Nat) (x : α) (xs : List α) :
    ∃ pre post, x :: xs = pre ++ minFold f x xs :: post ∧
      ∀ p ∈ pre, f (minFold f x xs) < f p := by
  induction xs generalizing x with
  | nil => exact ⟨[], [], rfl, by simp⟩
  | cons z zs ih =>
    by_cases hzx : f z < f x
    · have hstep : minFold f x (z :: zs) = minFold f z zs := by
        simp [minFold, if_pos hzx]
      rw [hstep]
      obtain ⟨pre, post, hsplit, hpre⟩ := ih z
      refine ⟨x :: pre, post, by rw [List.cons_append, ← hsplit], ?_⟩
      intro p hp
      rcases List.mem_cons.mp hp with rfl | hp'
      · exact Nat.lt_of_le_of_lt (minFold_le f z zs _ (List.mem_cons_self _ _)) hzx
      · exact hpre p hp'
    · have hstep : minFold f x (z :: zs) = minFold f x zs := by
        simp [minFold, if_neg hzx]
      rw [hstep]
      obtain ⟨pre, post, hsplit, hpre⟩ := ih x
      cases pre with
      | nil =>
        simp only [List.nil_append] at hsplit
        have hx : minFold f x zs = x := ((List.cons.injEq _ _ _ _).mp hsplit.symm).1
        refine ⟨[], z :: zs, by rw [hx, List.nil_append], by simp⟩
      | cons a pre' =>
        simp only [List.cons_append] at hsplit
        have ha : a = x := ((List.cons.injEq _ _ _ _).mp hsplit).1.symm
        have hzs : zs = pre' ++ minFold f x zs :: post :=
          ((List.cons.injEq _ _ _ _).mp hsplit).2
        refine ⟨x :: z :: pre', post,
          by rw [List.cons_append, List.cons_append, ← hzs], ?_⟩
        intro p hp
        have hrx : f (minFold f x zs) < f x := by
          have := hpre a (List.mem_cons_self _ _)
          rwa [ha] at this
        rcases List.mem_cons.mp hp with rfl | hp'
        · exact hrx
        · rcases List.mem_cons.mp hp' with rfl | hp''
          · exact Nat.lt_of_lt_of_le hrx (Nat.le_of_not_lt hzx)
          · exact hpre p (List.mem_cons_of_mem _ hp'')

theorem maxFold_last {α : Type} (f : α → Nat) (x : α) (xs : List α) :
    ∃ pre post, x :: xs = pre ++ maxFold f x xs :: post ∧
      ∀ p ∈ post, f p < f (maxFold f x xs) := by
  induction xs generalizing x with
  | nil => exact ⟨[], [], rfl, by simp⟩
  | cons z zs ih =>
    by_cases hxz : f x ≤ f z
    · have hstep : maxFold f x (z :: zs) = maxFold f z zs := by
        simp [maxFold, if_pos hxz]
      rw [hstep]
      obtain ⟨pre, post, hsplit, hpost⟩ := ih z
      exact ⟨x :: pre, post, by rw [List.cons_append, ← hsplit], hpost⟩
    · have hstep : maxFold f x (z :: zs) = maxFold f x zs := by
        simp [maxFold, if_neg hxz]
      rw [hstep]
      obtain ⟨pre, post, hsplit, hpost⟩ := ih x
      cases pre with
      | nil =>
        simp only [List.nil_append] at hsplit
        have hx : maxFold f x zs = x := ((List.cons.injEq _ _ _ _).mp hsplit.symm).1
        have hzs : post = zs := ((List.cons.injEq _ _ _ _).mp hsplit.symm).2
        refine ⟨[], z :: zs, by rw [hx, List.nil_append], ?_⟩
        intro p hp
        rcases List.mem_cons.mp hp with rfl | hp'
        · rw [hx]; exact Nat.lt_of_not_le hxz
        · rw [← hzs] at hp'; exact hpost p hp'
      | cons a pre' =>
        simp only [List.cons_append] at hsplit
        have hzs : zs = pre' ++ maxFold f x zs :: post :=
          ((List.cons.injEq _ _ _ _).mp hsplit).2
        exact ⟨x :: z :: pre', post,
          by rw [List.cons_append, List.cons_append, ← hzs], hpost⟩

theorem minFold_mem {α : Type} (f : α → Nat) (x : α) (xs : List α) :
    minFold f x xs ∈ x :: xs := by
  obtain ⟨pre, post, hsplit, _⟩ := minFold_first f x xs
  rw [hsplit]
  exact List.mem_append.mpr (Or.inr (List.mem_cons_self _ _))

theorem maxFold_mem {α : Type} (f : α → Nat) (x : α) (xs : List α) :
    maxFold f x xs ∈ x :: xs := by
  obtain ⟨pre, post, hsplit, _⟩ := maxFold_last f x xs
  rw [hsplit]
  exact List.mem_append.mpr (Or.inr (List.mem_cons_self _ _))

/-- The outcome record of `Commands::Stats`: total count, earliest and
latest record, and the paradigm-count mapping (the `HashMap` is modelled
as an association list; only lookups matter). -/
structure Stats where
  total : Nat
  earliest : Language
  latest : Language
  paradigm_counts : List (List Char × Nat)
deriving DecidableEq, Repr

/-- The one failure of the stats command: `.unwrap()` on `min_by_key` /
`max_by_key` panics when the catalog is empty. -/
inductive StatsError where
  | emptyCatalog
deriving DecidableEq, Repr

/-- `*paradigm_counts.entry(k).or_insert(0) += 1` on the association-list
model of the `HashMap`. -/
def bumpCount : List (List Char × Nat) → List Char → List (List Char × Nat)
  | [], k => [(k, 1)]
  | (k', v) :: rest, k =>
    if k' = k then (k', v + 1) :: rest else (k', v) :: bumpCount rest k

/-- Value of a key in the association-list map (first match), zero when
absent. -/
def lookupCount : List (List Char × Nat) → List Char → Nat
  | [], _ => 0
  | (k', v) :: rest, k => if k' = k then v else lookupCount rest k

/-- The `Commands::Stats` double loop: `for lang in &languages { for
paradigm in &lang.paradigm { *counts.entry(paradigm).or_insert(0) += 1 } }`. -/
def paradigmCountsMap (C : List Language) : List (List Char × Nat) :=
  C.foldl (fun m lang => lang.paradigm.foldl bumpCount m) []

/-- `Commands::Stats`: count, `min_by_key(|l| l.year).unwrap()`,
`max_by_key(|l| l.year).unwrap()`, paradigm counts; the unwraps panic
(modelled as `emptyCatalog`) exactly when the catalog is empty. -/
def computeStats (C : List Language) : Except StatsError Stats :=
  match minByKey Language.year C, maxByKey Language.year C with
  | some e, some l => .ok ⟨C.length, e, l, paradigmCountsMap C⟩
  | _, _ => .error .emptyCatalog

theorem lookupCount_bumpCount (m : List (List Char × Nat)) (k q : List Char) :
    lookupCount (bumpCount m k) q =
      lookupCount m q + (if q = k then 1 else 0) := by
  induction m with
  | nil =>
    by_cases h : q = k
    · subst h
      simp [bumpCount, lookupCount]
    · have h' : ¬ (k = q) := fun hh => h hh.symm
      simp [bumpCount, lookupCount, h, h']
  | cons kv rest ih =>
    obtain ⟨k', v⟩ := kv
    by_cases hk : k' = k
    · subst hk
      by_cases hq : q = k'
      · subst hq
        simp [bumpCount, lookupCount]
      · have hq' : ¬ (k' = q) := fun hh => hq hh.symm
        simp [bumpCount, lookupCount, hq, hq']
    · simp only [bumpCount, if_neg hk]
      by_cases hq : k' = q
      · subst hq
        simp [lookupCount, hk]
      · simp [lookupCount, hq, ih]

theorem lookupCount_foldl_bump (ps : List (List Char))
    (m : List (List Char × Nat)) (q : List Char) :
    lookupCount (ps.foldl bumpCount m) q = lookupCount m q + ps.count q := by
  induction ps generalizing m with
  | nil => simp [lookupCount]
  | cons p ps ih =>
    by_cases h : q = p
    · subst h
      rw [List.foldl_cons, ih, lookupCount_bumpCount, List.count_cons]
      simp only [beq_iff_eq, if_pos rfl]
      omega
    · have h' : ¬ (p = q) := fun hh => h hh.symm
      rw [List.foldl_cons, ih, lookupCount_bumpCount, List.count_cons]
      simp only [beq_iff_eq, if_neg h, if_neg h']
      omega

theorem lookupCount_paradigm_foldl (C : List Language)
    (m : List (List Char × Nat)) (q : List Char) :
    lookupCount (C.foldl (fun m lang => lang.paradigm.foldl bumpCount m) m) q =
      lookupCount m q + (C.map (fun lang => lang.paradigm.count q)).sum := by
  induction C generalizing m with
  | nil => simp
  | cons lang rest ih =>
    rw [List.foldl_cons, ih, lookupCount_foldl_bump, List.map_cons,
      List.sum_cons, Nat.add_assoc]

theorem lookupCount_paradigmCountsMap (C : List Language) (q : List Char) :
    lookupCount (paradigmCountsMap C) q =
      (C.map (fun lang => lang.paradigm.count q)).sum := by
  rw [paradigmCountsMap, lookupCount_paradigm_foldl]
  simp [lookupCount]

/-- Unfolding of `computeStats` on a non-empty catalog. -/
theorem computeStats_cons (x : Language) (xs : List Language) :
    computeStats (x :: xs) =
      .ok ⟨(x :: xs).length, minFold Language.year x xs,
        maxFold Language.year x xs, paradigmCountsMap (x :: xs)⟩ := rfl

/-- C8: on a non-empty catalog, `total` is the catalog length, `earliest`
is a member with minimal year (tie-break: the first such record), and
`latest` is a member whose year bounds every record's year from above. -/
theorem computeStats_correct (C : List Language) (s : Stats)
    (h : computeStats C = .ok s) :
    s.total = C.length ∧
    s.earliest ∈ C ∧ (∀ r ∈ C, s.earliest.year ≤ r.year) ∧
    (∃ pre post, C = pre ++ s.earliest :: post ∧
      ∀ r ∈ pre, s.earliest.year < r.year) ∧
    s.latest ∈ C ∧ (∀ r ∈ C, r.year ≤ s.latest.year) := by
  cases C with
  | nil => exact absurd h (by simp [computeStats, minByKey, maxByKey])
  | cons x xs =>
    rw [computeStats_cons] at h
    injection h with h'
    subst h'
    exact ⟨rfl, minFold_mem _ x xs, fun r hr => minFold_le _ x xs r hr,
      minFold_first _ x xs, maxFold_mem _ x xs,
      fun r hr => maxFold_ge _ x xs r hr⟩

/-- The stats value computed on `sampleCatalog`. -/
def sampleStats : Stats :=
  ⟨2, goRec, rustRec, [(['f', 'n'], 1), (['i', 'm', 'p'], 1)]⟩

/-- C8 witness at the concrete two-record catalog. -/
theorem computeStats_correct_witness :
    sampleStats.total = sampleCatalog.length ∧
    sampleStats.earliest ∈ sampleCatalog ∧
    (∀ r ∈ sampleCatalog, sampleStats.earliest.year ≤ r.year) ∧
    (∃ pre post, sampleCatalog = pre ++ sampleStats.earliest :: post ∧
      ∀ r ∈ pre, sampleStats.earliest.year < r.year) ∧
    sampleStats.latest ∈ sampleCatalog ∧
    (∀ r ∈ sampleCatalog, r.year ≤ sampleStats.latest.year) :=
  computeStats_correct sampleCatalog sampleStats rfl

/- Two distinct records sharing one year, for the tie-break analysis. -/

/-- Tie record A (year 2000), first in catalog order. -/
def tieA : Language :=
  { name := ['A'], year := 2000, creators := [], paradigm := []
    typing := [], influenced_by := [] }

/-- Tie record B (year 2000), second in catalog order. -/
def tieB : Language :=
  { name := ['B'], year := 2000, creators := [], paradigm := []
    typing := [], influenced_by := [] }

/-- C2 counterexample: with two distinct records sharing the maximum year,
the first maximal-year record in catalog order is `tieA`, but the stats
command returns `tieB` as `latest` (Rust `max_by_key` keeps the LAST
maximum). -/
theorem latest_tiebreak_counterexample :
    tieA.year = tieB.year ∧ tieA ≠ tieB ∧
    [tieA, tieB].find?
      (fun r => decide (∀ s ∈ [tieA, tieB], s.year ≤ r.year)) = some tieA ∧
    computeStats [tieA, tieB] = .ok ⟨2, tieA, tieB, []⟩ :=
  ⟨rfl, by decide, by decide, rfl⟩

/-- C2 amended: `latest` is a maximal-year record and, when several records
share the maximum year, it is the LAST such record in catalog order. -/
theorem computeStats_latest_last (C : List Language) (s : Stats)
    (h : computeStats C = .ok s) :
    s.latest ∈ C ∧ (∀ r ∈ C, r.year ≤ s.latest.year) ∧
    ∃ pre post, C = pre ++ s.latest :: post ∧
      ∀ r ∈ post, r.year < s.latest.year := by
  cases C with
  | nil => exact absurd h (by simp [computeStats, minByKey, maxByKey])
  | cons x xs =>
    rw [computeStats_cons] at h
    injection h with h'
    subst h'
    exact ⟨maxFold_mem _ x xs, fun r hr => maxFold_ge _ x xs r hr,
      maxFold_last _ x xs⟩

/-- C2 amended-claim witness at a concrete tied catalog. -/
theorem computeStats_latest_last_witness :
    (Stats.latest ⟨2, tieA, tieB, []⟩) ∈ [tieA, tieB] ∧
    (∀ r ∈ [tieA, tieB], r.year ≤ (Stats.latest ⟨2, tieA, tieB, []⟩).year) ∧
    ∃ pre post, [tieA, tieB] = pre ++ (Stats.latest ⟨2, tieA, tieB, []⟩) :: post ∧
      ∀ r ∈ post, r.year < (Stats.latest ⟨2, tieA, tieB, []⟩).year :=
  computeStats_latest_last [tieA, tieB] ⟨2, tieA, tieB, []⟩ rfl

/-- C3: the stats command fails with `EmptyCatalog` exactly on the empty
catalog, succeeds on every non-empty catalog, and the search and filter
operations are total: on every catalog and query they return a
(sub-)sequence of the catalog, never an error. -/
theorem statsFailsIffEmpty (C : List Language) :
    (computeStats C = .error .emptyCatalog ↔ C = []) ∧
    ((∃ s, computeStats C = .ok s) ↔ C ≠ []) ∧
    (∀ q, (searchByName C q).Sublist C) ∧
    (∀ y, (filterByYear C y).Sublist C) ∧
    (∀ q, (filterByCreator C q).Sublist C) := by
  cases C with
  | nil =>
    refine ⟨⟨fun _ => rfl, fun _ => rfl⟩, ?_,
      fun q => List.filter_sublist _, fun y => List.filter_sublist _,
      fun q => List.filter_sublist _⟩
    constructor
    · rintro ⟨s, hs⟩
      exact absurd hs (by simp [computeStats, minByKey, maxByKey])
    · intro h
      exact absurd rfl h
  | cons x xs =>
    refine ⟨?_, ?_, fun q => List.filter_sublist _, fun y => List.filter_sublist _,
      fun q => List.filter_sublist _⟩
    · rw [computeStats_cons]
      simp
    · rw [computeStats_cons]
      simp

/-- The record with a duplicated paradigm tag, refuting the per-record
reading of `paradigm_counts`. -/
def dupRec : Language :=
  { name := ['D'], year := 2000, creators := []
    paradigm := [['f'], ['f']], typing := [], influenced_by := [] }

/-- C1 counterexample: one record listing tag `"f"` twice yields
`paradigm_counts["f"] = 2`, while the number of records containing the tag
is 1 — the claim's value and the code's value differ. -/
theorem paradigm_counts_counterexample :
    (['f'] ∈ dupRec.paradigm) ∧
    lookupCount (paradigmCountsMap [dupRec]) ['f'] = 2 ∧
    List.countP (fun l => decide (['f'] ∈ l.paradigm)) [dupRec] = 1 ∧
    lookupCount (paradigmCountsMap [dupRec]) ['f'] ≠
      List.countP (fun l => decide (['f'] ∈ l.paradigm)) [dupRec] := by decide

/-- C1 amended: for every non-empty catalog and tag occurring in it,
`paradigm_counts` maps the tag to the total number of OCCURRENCES of the
tag across all records' paradigm lists (a record listing it k times
contributes k, not 1). -/
theorem paradigm_counts_occurrences (C : List Language) (p : List Char)
    (_hC : C ≠ []) (_hp : ∃ r ∈ C, p ∈ r.paradigm) :
    lookupCount (paradigmCountsMap C) p =
      (C.map (fun lang => lang.paradigm.count p)).sum :=
  lookupCount_paradigmCountsMap C p

/-- C1 amended-claim witness at the duplicated-tag record. -/
theorem paradigm_counts_occurrences_witness :
    lookupCount (paradigmCountsMap [dupRec]) ['f'] =
      ([dupRec].map (fun lang => lang.paradigm.count ['f'])).sum :=
  paradigm_counts_occurrences [dupRec] ['f'] (by decide) (by decide)

/-- Failure modes of `load_languages`: a panic while resolving the
candidate-path array, a panic when no candidate is readable, and the
`expect` failure when the chosen content does not parse. -/
inductive LoadError where
  | pathPanic
  | notFound
  | parseError
deriving DecidableEq, Repr

/-- The candidate-path array of `load_languages`.  All four entries are
built before any probing; `env::current_exe().unwrap()`, `.parent().unwrap()`
and `dirs::data_local_dir().unwrap()` are modelled as `Option` inputs whose
`none` makes the whole array construction panic (`none` result). -/
def buildPaths (currentExe : Option String) (parentDir : String → Option String)
    (dataLocalDir : Option String) : Option (List String) :=
  match currentExe with
  | none => none
  | some exe =>
    match parentDir exe with
    | none => none
    | some dir =>
      match dataLocalDir with
      | none => none
      | some dld =>
        some ["languages.json", dir ++ "/languages.json",
          "/usr/local/share/kapa/languages.json", dld ++ "/kapa/languages.json"]

/-- The probe-and-parse stage of `load_languages` over the per-candidate
read outcomes: `paths.iter().find_map(|p| fs::read_to_string(p).ok())`
followed by `serde_json::from_str(&data).expect(..)`. -/
def loadFromCandidates (parse : String → Option (List Language))
    (outcomes : List (Option String)) : Except LoadError (List Language) :=
  match outcomes.findSome? id with
  | none => .error .notFound
  | some data =>
    match parse data with
    | none => .error .parseError
    | some langs => .ok langs

/-- `load_languages`, with the file system (`read`) and `serde_json`
(`parse`) abstracted as oracles. -/
def load_languages (currentExe : Option String)
    (parentDir : String → Option String) (dataLocalDir : Option String)
    (read : String → Option String)
    (parse : String → Option (List Language)) : Except LoadError (List Language) :=
  match buildPaths currentExe parentDir dataLocalDir with
  | none => .error .pathPanic
  | some paths => loadFromCandidates parse (paths.map read)

/-- C4: the loader commits to the first readable candidate.  If every
earlier candidate is unreadable and the first readable one holds content
that does not parse, loading fails with a parse error — for EVERY list of
later candidates, including ones that would have parsed. -/
theorem loader_commits_first_readable (parse : String → Option (List Language))
    (pre tail : List (Option String)) (s : String)
    (hpre : ∀ o ∈ pre, o = none) (hs : parse s = none) :
    loadFromCandidates parse (pre ++ some s :: tail) = .error .parseError := by
  have hfind : (pre ++ some s :: tail).findSome? id = some s := by
    induction pre with
    | nil => simp
    | cons o pre ih =>
      have ho : o = none := hpre o (List.mem_cons_self _ _)
      subst ho
      rw [List.cons_append]
      simpa using ih (fun o hmem => hpre o (List.mem_cons_of_mem _ hmem))
  simp [loadFromCandidates, hfind, hs]

/-- C4 witness: first candidate unreadable, second readable but malformed,
third readable and well-formed — the loader still fails with a parse
error. -/
theorem loader_commits_first_readable_witness :
    loadFromCandidates
      (fun t => if t = "bad" then none else some ([] : List Language))
      ([none] ++ some "bad" :: [some "good"]) = .error .parseError :=
  loader_commits_first_readable
    (fun t => if t = "bad" then none else some ([] : List Language))
    [none] [some "good"] "bad" (by simp) (by simp)

/-- C9: the candidate array is resolved eagerly, so an unresolvable
executable path, executable parent directory, or user-local data directory
panics even when the first candidate (`languages.json` in the working
directory) is readable and would parse. -/
theorem load_languages_eager_paths (currentExe : Option String)
    (parentDir : String → Option String) (dataLocalDir : Option String)
    (read : String → Option String) (parse : String → Option (List Language))
    (s : String) (langs : List Language)
    (_hread : read "languages.json" = some s) (_hparse : parse s = some langs)
    (hfail : currentExe = none ∨
      (∃ e, currentExe = some e ∧ parentDir e = none) ∨ dataLocalDir = none) :
    load_languages currentExe parentDir dataLocalDir read parse =
      .error .pathPanic := by
  have hbuild : buildPaths currentExe parentDir dataLocalDir = none := by
    rcases hfail with h | ⟨e, he, hp⟩ | h
    · subst h
      rfl
    · subst he
      simp [buildPaths, hp]
    · subst h
      cases currentExe with
      | none => rfl
      | some e =>
        cases hpd : parentDir e with
        | none => simp [buildPaths, hpd]
        | some d => simp [buildPaths, hpd]
  simp [load_languages, hbuild]

/-- C9 witness: unresolvable executable path with a readable, parseable
first candidate. -/
theorem load_languages_eager_paths_witness :
    load_languages none (fun _ => none) (some "d") (fun _ => some "data")
      (fun _ => some ([] : List Language)) = .error .pathPanic :=
  load_languages_eager_paths none (fun _ => none) (some "d")
    (fun _ => some "data") (fun _ => some ([] : List Language)) "data" []
    rfl rfl (Or.inl rfl)

/-- `Char.toLower` unfolded. -/
theorem toLower_def (c : Char) :
    c.toLower = if c.toNat ≥ 65 ∧ c.toNat ≤ 90 then Char.ofNat (c.toNat + 32) else c :=
  rfl

/-- `Char.ofNat` round-trips on the lower-case ASCII range. -/
theorem toNat_ofNat_lower (m : Nat) (h1 : 97 ≤ m) (h2 : m ≤ 122) :
    (Char.ofNat m).toNat = m := by
  interval_cases m <;> rfl

/-- Lowercasing a character is idempotent. -/
theorem toLower_idem (c : Char) : c.toLower.toLower = c.toLower := by
  by_cases h : c.toNat ≥ 65 ∧ c.toNat ≤ 90
  · have h1 : c.toLower = Char.ofNat (c.toNat + 32) := by
      rw [toLower_def, if_pos h]
    have hv : (Char.ofNat (c.toNat + 32)).toNat = c.toNat + 32 :=
      toNat_ofNat_lower _ (by omega) (by omega)
    rw [h1, toLower_def, if_neg (by rw [hv]; omega)]
  · have h1 : c.toLower = c := by
      rw [toLower_def, if_neg h]
    simp only [h1]

/-- Lowercasing a string is idempotent. -/
theorem lowerStr_idem (s : List Char) : lowerStr (lowerStr s) = lowerStr s := by
  induction s with
  | nil => rfl
  | cons c cs ih =>
    simp only [lowerStr, List.map_cons, List.map_map] at *
    rw [List.cons.injEq]
    exact ⟨toLower_idem c, ih⟩

/-- C10: name search and creator filtering are invariant under lowercasing
the query, because both sides of each comparison are lowercased before the
substring test. -/
theorem query_case_invariant (C : List Language) (q : List Char) :
    searchByName C q = searchByName C (lowerStr q) ∧
    filterByCreator C q = filterByCreator C (lowerStr q) := by
  constructor <;> simp [searchByName, filterByCreator, lowerStr_idem]

end Kapa
